import Mathlib

/-
  Verification of the dedoc hierarchical numbering gap-filler ("list patcher").

  The patcher body (dedoc/structure_constructor/concreat_structure_constructors/
  list_patcher.py, class ListPatcher) is not part of the available sources; only
  its unit-test suite (tests/units/test_list_patcher.py) is.  The definitions
  below are therefore modelled from the specification, sections 3 and 4, and
  validated against every expectation of the test suite.  Where the literal
  text of section 4.2 and the baseline lifecycle of section 3 disagree (depths
  below an already-incremented component), the model follows the baseline
  lifecycle, which is the reading the test suite pins down.
-/

namespace Dedoc

/-- Modelled from the spec: the Line value of section 3 (the missing
LineWithMeta-based patcher input). Fields: literal text, the upstream
(major, minor) outline classification, the upstream category tag, and the
is_synthetic marker which is false for all input lines. -/
structure Line where
  text : String
  outline_level : Option Int × Option Int
  category : String
  is_synthetic : Bool
deriving DecidableEq, Repr

/-- A character the Numbering Parser keeps while scanning the leading
numeric prefix: a decimal digit or a dot. -/
def isNumChar (c : Char) : Bool := c.isDigit || c == '.'

/-- Split a character list on the dot separator. -/
def splitDots : List Char → List (List Char)
  | [] => [[]]
  | c :: rest =>
    if c == '.' then [] :: splitDots rest
    else
      match splitDots rest with
      | [] => [[c]]
      | g :: gs => (c :: g) :: gs

/-- Drop the single trailing empty component caused by a terminal dot. -/
def dropTrailingEmpty (parts : List (List Char)) : List (List Char) :=
  if parts.getLast? = some ([] : List Char) then parts.dropLast else parts

/-- Decimal value of a digit list. -/
def digitsVal (cs : List Char) : Nat :=
  cs.foldl (fun a c => 10 * a + (c.toNat - 48)) 0

/-- Modelled from the spec: one component of the numeric prefix parses when
it is a non-empty digit group whose value is a positive integer. -/
def parseComp (cs : List Char) : Option Nat :=
  if cs ≠ [] ∧ cs.all Char.isDigit ∧ 1 ≤ digitsVal cs then some (digitsVal cs)
  else none

/-- Parse every component, failing when any component fails. -/
def parseComps : List (List Char) → Option (List Nat)
  | [] => some []
  | cs :: rest =>
    match parseComp cs, parseComps rest with
    | some n, some ns => some (n :: ns)
    | _, _ => none

/-- Modelled from the spec: the Numbering Parser of section 4.1 (the missing
ListPatcher numbering extraction). It takes the maximal leading prefix of
digits and dots, splits it on dots ignoring one trailing empty component,
and requires every component to parse as a positive integer. -/
def parse_path (text : String) : Option (List Nat) :=
  if text.toList.takeWhile isNumChar = [] then none
  else parseComps (dropTrailingEmpty (splitDots (text.toList.takeWhile isNumChar)))

/-- Modelled from the spec: the Path Transition Planner at depths strictly
deeper than the established baseline, or deeper than an increment already
made in this run (sections 3 and 4.2): counting restarts at 1, every
candidate established ++ [v] is emitted except the one equal to the full
target, which is the real line. -/
def freshPlan (established : List Nat) : List Nat → List (List Nat)
  | [] => []
  | t :: ts =>
    if ts = [] then (List.range (t - 1)).map (fun v => established ++ [v + 1])
    else ((List.range t).map (fun v => established ++ [v + 1])) ++
      freshPlan (established ++ [t]) ts

/-- Modelled from the spec: the Path Transition Planner of section 4.2 while
the baseline is still being matched. At each depth the count starts from the
baseline component: a lower target component is a regression that stops
planning, an equal component is consumed silently, a higher component emits
the bridging candidates and every deeper depth is planned fresh, following
the baseline lifecycle of section 3. -/
def basePlan : List Nat → List Nat → List Nat → List (List Nat)
  | _, _, [] => []
  | est, [], ts => freshPlan est ts
  | est, b :: bs, t :: ts =>
    if t < b then []
    else if t = b then basePlan (est ++ [t]) bs ts
    else if ts = [] then (List.range (t - b - 1)).map (fun v => est ++ [b + 1 + v])
    else ((List.range (t - b)).map (fun v => est ++ [b + 1 + v])) ++
      freshPlan (est ++ [t]) ts

/-- Modelled from the spec: the Path Transition Planner entry point of
section 4.2. An absent baseline yields no intermediates. -/
def plan : Option (List Nat) → List Nat → List (List Nat)
  | none, _ => []
  | some B, T => basePlan [] B T

/-- Modelled from the spec: the synthetic text of section 4.3, the path
components joined by dots with a trailing dot appended. -/
def path_text (p : List Nat) : String :=
  String.join (p.map (fun n => Nat.repr n ++ "."))

/-- Modelled from the spec: the Synthetic Line Synthesizer of section 4.3. -/
def synth_line (p : List Nat) : Line :=
  { text := path_text p
    outline_level := (some 1, some (Int.ofNat p.length))
    category := "list_item"
    is_synthetic := true }

/-- Modelled from the spec: the Patch Sequencer loop of section 4.4 with the
baseline threaded explicitly. An unparseable line resets the baseline; a
parseable line is preceded by the planned synthetic lines and becomes the
new baseline. -/
def patchFrom : Option (List Nat) → List Line → List Line
  | _, [] => []
  | baseline, l :: ls =>
    match parse_path l.text with
    | none => l :: patchFrom none ls
    | some T => ((plan baseline T).map synth_line) ++ (l :: patchFrom (some T) ls)

/-- Modelled from the spec: the public entry point patch of section 4.4
(the missing ListPatcher.patch). -/
def patch (lines : List Line) : List Line := patchFrom none lines

/-- An input line as the test suite builds them: real, list-classified. -/
def mkLine (text : String) : Line :=
  { text := text
    outline_level := (some 1, some 0)
    category := "list"
    is_synthetic := false }

/-- The input of test_hl_raw_text5: baseline [1,1] meets target [2,2]. -/
def hlRawText5Lines : List Line :=
  ["1 item", "1.1  item", "2.2  item", "3  item"].map mkLine

/-- The input of test_miss_in_the_middle_list2: a deep five-level gap. -/
def missMiddle2Lines : List Line :=
  ["1 item", "2.1.2.1.2  item", "2.2  item", "3  item"].map mkLine

/-- C1: the claim asserts that patch on the test_hl_raw_text5 input inserts
exactly one synthetic line, with text just a single bridging value at the
top depth. The code inserts two synthetic lines there, as the cited test
expects, so the single-line reading is false. -/
theorem C1_counterexample :
    ¬ ((patch hlRawText5Lines).filter (fun l => l.is_synthetic)).map Line.text
      = ["2."] := by
  decide

/-- C1 (amended): at a depth not deeper than the baseline the planner starts
counting from the baseline component only while no shallower component has
been incremented in this planning run; once one has, deeper depths restart
from 1. Consequently on the input ["1 item", "1.1  item", "2.2  item",
"3  item"] patch inserts exactly the two synthetic lines "2." and "2.1.",
both immediately before the line "2.2  item". -/
theorem C1_amended_theorem :
    ((patch hlRawText5Lines).filter (fun l => l.is_synthetic)).map Line.text
      = ["2.", "2.1."] ∧
    (patch hlRawText5Lines).map Line.text
      = ["1 item", "1.1  item", "2.", "2.1.", "2.2  item", "3  item"] := by
  constructor <;> decide

/-- C2: deep-gap bridging. Patch on ["1 item", "2.1.2.1.2  item",
"2.2  item", "3  item"] returns exactly the ten expected lines in order;
the planner with baseline [1] and target [2,1,2,1,2] produces exactly the
six intermediates in shallow-to-deep order; the real line carrying the
target path is not synthesized. -/
theorem C2_deep_gap_bridging :
    (patch missMiddle2Lines).map (fun l => (l.text, l.is_synthetic))
      = [("1 item", false), ("2.", true), ("2.1.", true), ("2.1.1.", true),
         ("2.1.2.", true), ("2.1.2.1.", true), ("2.1.2.1.1.", true),
         ("2.1.2.1.2  item", false), ("2.2  item", false), ("3  item", false)] ∧
    plan (some [1]) [2, 1, 2, 1, 2]
      = [[2], [2, 1], [2, 1, 1], [2, 1, 2], [2, 1, 2, 1], [2, 1, 2, 1, 1]] ∧
    [2, 1, 2, 1, 2] ∉ plan (some [1]) [2, 1, 2, 1, 2] := by
  refine ⟨by decide, by decide, by decide⟩

/-- C3: once the planner has incremented a component at some depth, deeper
depths restart counting from 1 rather than continuing from the baseline
component at that depth: on the test_hl_raw_text5 input (baseline [1,1],
target [2,2]) patch inserts exactly the two synthetic lines "2." and
"2.1.", in that order, immediately before the line "2.2  item". -/
theorem C3_fresh_restart_below_increment :
    (patch hlRawText5Lines).map (fun l => (l.text, l.is_synthetic))
      = [("1 item", false), ("1.1  item", false), ("2.", true), ("2.1.", true),
         ("2.2  item", false), ("3  item", false)] ∧
    plan (some [1, 1]) [2, 2] = [[2], [2, 1]] := by
  refine ⟨by decide, by decide⟩

/-- Any unparseable line is passed through unchanged and clears the
baseline for the rest of the run. -/
theorem patchFrom_unparseable (b : Option (List Nat)) (l : Line) (ls : List Line)
    (h : parse_path l.text = none) :
    patchFrom b (l :: ls) = l :: patchFrom none ls := by
  simp [patchFrom, h]

/-- C5: context reset on unparseable text. A line whose text yields no
NumericPath is appended unchanged and the baseline is cleared, whatever it
was; an absent baseline yields zero synthetic lines for the next parseable
line; in particular patch leaves ["2 item", "some item", "2 item"]
unchanged. -/
theorem C5_context_reset :
    (∀ (b : Option (List Nat)) (l : Line) (ls : List Line),
      parse_path l.text = none → patchFrom b (l :: ls) = l :: patchFrom none ls) ∧
    (∀ T : List Nat, plan none T = []) ∧
    patch (["2 item", "some item", "2 item"].map mkLine)
      = ["2 item", "some item", "2 item"].map mkLine := by
  refine ⟨fun b l ls h => patchFrom_unparseable b l ls h, fun T => rfl, by decide⟩

/-- C5 witness: the reset rule applied at a concrete baseline and line. -/
theorem C5_witness :
    patchFrom (some [3]) [mkLine "some item"] = [mkLine "some item"] := by
  have h := C5_context_reset.1 (some [3]) (mkLine "some item") [] (by decide)
  exact h

/-- While the baseline is matched component by component, a target component
strictly below the baseline component stops planning with nothing emitted. -/
theorem basePlan_regression (P : List Nat) (E : List Nat) (b : Nat) (bs : List Nat)
    (t : Nat) (ts : List Nat) (h : t < b) :
    basePlan E (P ++ b :: bs) (P ++ t :: ts) = [] := by
  induction P generalizing E with
  | nil => simp [basePlan, h]
  | cons p P ih => simp [basePlan, ih]

/-- C9: regression reset. When the first depth where the target differs
from the baseline carries a strictly lower component, the planner emits no
synthetic lines at all, the real line is appended unchanged, and its path
becomes the new baseline; patch is total, so no error is possible. -/
theorem C9_regression_reset :
    ∀ (P : List Nat) (b : Nat) (bs : List Nat) (t : Nat) (ts : List Nat)
      (l : Line) (ls : List Line),
      t < b → parse_path l.text = some (P ++ t :: ts) →
      plan (some (P ++ b :: bs)) (P ++ t :: ts) = [] ∧
      patchFrom (some (P ++ b :: bs)) (l :: ls)
        = l :: patchFrom (some (P ++ t :: ts)) ls := by
  intro P b bs t ts l ls hlt hparse
  have hplan : plan (some (P ++ b :: bs)) (P ++ t :: ts) = [] :=
    basePlan_regression P [] b bs t ts hlt
  refine ⟨hplan, ?_⟩
  simp [patchFrom, hparse, hplan]

/-- C9 witness: baseline [3] followed by the lower target [2]. -/
theorem C9_witness :
    plan (some [3]) [2] = [] ∧
    patchFrom (some [3]) [mkLine "2 item"] = [mkLine "2 item"] := by
  have h := C9_regression_reset [] 3 [] 2 [] (mkLine "2 item") [] (by decide) (by decide)
  exact ⟨h.1, h.2⟩

theorem synth_line_is_synthetic (p : List Nat) : (synth_line p).is_synthetic = true := rfl

/-- Synthetic lines never survive the real-line filter. -/
theorem filter_real_map_synth (pl : List (List Nat)) :
    (pl.map synth_line).filter (fun l => !l.is_synthetic) = [] := by
  induction pl with
  | nil => rfl
  | cons p pl ih => simp [List.filter_cons, synth_line_is_synthetic, ih]

/-- Filtering the patched output down to real lines recovers the input. -/
theorem patchFrom_filter_real (ls : List Line) :
    ∀ b : Option (List Nat), (∀ l ∈ ls, l.is_synthetic = false) →
    (patchFrom b ls).filter (fun l => !l.is_synthetic) = ls := by
  induction ls with
  | nil => intro b _; rfl
  | cons l ls ih =>
    intro b hreal
    have hl : l.is_synthetic = false := hreal l (by simp)
    have hls : ∀ x ∈ ls, x.is_synthetic = false := fun x hx => hreal x (by simp [hx])
    cases h : parse_path l.text with
    | none => simp [patchFrom, h, List.filter_cons, hl, ih none hls]
    | some T =>
      simp [patchFrom, h, List.filter_append, filter_real_map_synth,
        List.filter_cons, hl, ih (some T) hls]

/-- The block of synthetic lines the sequencer places before each line. -/
def patchBlocks : Option (List Nat) → List Line → List (List Line)
  | _, [] => []
  | baseline, l :: ls =>
    match parse_path l.text with
    | none => ([] : List Line) :: patchBlocks none ls
    | some T => ((plan baseline T).map synth_line) :: patchBlocks (some T) ls

theorem patchBlocks_length (ls : List Line) :
    ∀ b : Option (List Nat), (patchBlocks b ls).length = ls.length := by
  induction ls with
  | nil => intro b; rfl
  | cons l ls ih =>
    intro b
    cases h : parse_path l.text with
    | none => simp [patchBlocks, h, ih none]
    | some T => simp [patchBlocks, h, ih (some T)]

theorem patchBlocks_synthetic (ls : List Line) :
    ∀ b : Option (List Nat), ∀ bl ∈ patchBlocks b ls, ∀ s ∈ bl, s.is_synthetic = true := by
  induction ls with
  | nil => intro b bl hbl; simp [patchBlocks] at hbl
  | cons l ls ih =>
    intro b bl hbl
    cases h : parse_path l.text with
    | none =>
      simp [patchBlocks, h] at hbl
      rcases hbl with rfl | hbl
      · intro s hs; simp at hs
      · exact ih none bl hbl
    | some T =>
      simp [patchBlocks, h] at hbl
      rcases hbl with rfl | hbl
      · intro s hs
        rcases List.mem_map.mp hs with ⟨p, _, rfl⟩
        rfl
      · exact ih (some T) bl hbl

/-- The patched output is exactly the input with its synthetic block glued
in front of every line. -/
theorem patchFrom_eq_blocks (ls : List Line) :
    ∀ b : Option (List Nat),
    patchFrom b ls = (List.zipWith (fun bl l => bl ++ [l]) (patchBlocks b ls) ls).flatten := by
  induction ls with
  | nil => intro b; rfl
  | cons l ls ih =>
    intro b
    cases h : parse_path l.text with
    | none => simp [patchFrom, patchBlocks, h, ih none]
    | some T => simp [patchFrom, patchBlocks, h, ih (some T)]

/-- C4: order preservation. For real-line input, the subsequence of the
output with is_synthetic = false is the input itself, and the output
decomposes as the input with a block of synthetic lines placed immediately
before each input line, so no synthetic line ever follows the line whose
numbering justified it. -/
theorem C4_order_preservation :
    ∀ lines : List Line, (∀ l ∈ lines, l.is_synthetic = false) →
    (patch lines).filter (fun l => !l.is_synthetic) = lines ∧
    ∃ blocks : List (List Line),
      blocks.length = lines.length ∧
      (∀ bl ∈ blocks, ∀ s ∈ bl, s.is_synthetic = true) ∧
      patch lines = (List.zipWith (fun bl l => bl ++ [l]) blocks lines).flatten := by
  intro lines hreal
  exact ⟨patchFrom_filter_real lines none hreal,
    patchBlocks none lines, patchBlocks_length lines none,
    patchBlocks_synthetic lines none, patchFrom_eq_blocks lines none⟩

/-- C4 witness: order preservation at the deep-gap test input. -/
theorem C4_witness :
    (patch missMiddle2Lines).filter (fun l => !l.is_synthetic) = missMiddle2Lines ∧
    ∃ blocks : List (List Line),
      blocks.length = missMiddle2Lines.length ∧
      (∀ bl ∈ blocks, ∀ s ∈ bl, s.is_synthetic = true) ∧
      patch missMiddle2Lines
        = (List.zipWith (fun bl l => bl ++ [l]) blocks missMiddle2Lines).flatten :=
  C4_order_preservation missMiddle2Lines (by decide)

/-- The projection of a line the patching behavior can depend on. -/
def lineKey (l : Line) : String × Bool := (l.text, l.is_synthetic)

/-- The sequencer output, observed through text and synthetic flag, is a
function of the input texts and synthetic flags alone. -/
theorem patchFrom_key_congr (ls₁ : List Line) :
    ∀ (ls₂ : List Line) (b : Option (List Nat)),
      ls₁.map lineKey = ls₂.map lineKey →
      (patchFrom b ls₁).map lineKey = (patchFrom b ls₂).map lineKey := by
  induction ls₁ with
  | nil =>
    intro ls₂ b h
    cases ls₂ with
    | nil => rfl
    | cons l₂ t₂ => simp at h
  | cons l₁ t₁ ih =>
    intro ls₂ b h
    cases ls₂ with
    | nil => simp at h
    | cons l₂ t₂ =>
      rw [List.map_cons, List.map_cons] at h
      injection h with hhead htail
      have htext : l₁.text = l₂.text := congrArg Prod.fst hhead
      cases hp : parse_path l₁.text with
      | none =>
        have hp₂ : parse_path l₂.text = none := by rw [← htext]; exact hp
        simp [patchFrom, hp, hp₂, hhead, ih t₂ none htail]
      | some T =>
        have hp₂ : parse_path l₂.text = some T := by rw [← htext]; exact hp
        simp [patchFrom, hp, hp₂, hhead, ih t₂ (some T) htail]

/-- C10: insensitivity to upstream classification. Two inputs that agree
line by line on text and synthetic flag, however their outline_level and
category fields differ, patch to outputs with identical texts, in identical
order, with synthetic lines at identical positions. -/
theorem C10_classification_insensitivity :
    ∀ lines₁ lines₂ : List Line,
      lines₁.map lineKey = lines₂.map lineKey →
      (patch lines₁).map lineKey = (patch lines₂).map lineKey := by
  intro lines₁ lines₂ h
  exact patchFrom_key_congr lines₁ lines₂ none h

/-- A raw, unclassified line as the raw-text tests build them. -/
def rawLine (text : String) : Line :=
  { text := text
    outline_level := (none, none)
    category := "raw_text"
    is_synthetic := false }

/-- C10 witness: the deep-gap input patched once with list classification
and once with raw-text classification gives the same texts and flags. -/
theorem C10_witness :
    (patch (["1 item", "2.1.2.1.2  item", "2.2  item", "3  item"].map mkLine)).map lineKey
      = (patch (["1 item", "2.1.2.1.2  item", "2.2  item", "3  item"].map rawLine)).map lineKey :=
  C10_classification_insensitivity _ _ (by decide)

/-- The gap-free successor relation of the claim: the target differs from
the baseline by exactly one increment at the deepest shared depth, dropping
any deeper baseline components, or opens exactly one new depth at value 1,
with no skipped values. -/
def oneStep : List Nat → List Nat → Bool
  | [], ts => ts == [1]
  | _ :: _, [] => false
  | b :: bs, t :: ts => (ts.isEmpty && t == b + 1) || (t == b && oneStep bs ts)

/-- A gap-free transition makes the planner emit nothing. -/
theorem oneStep_basePlan (B : List Nat) :
    ∀ (T E : List Nat), oneStep B T = true → basePlan E B T = [] := by
  induction B with
  | nil =>
    intro T E h
    simp [oneStep] at h
    subst h
    simp [basePlan, freshPlan]
  | cons b bs ih =>
    intro T E h
    cases T with
    | nil => simp [oneStep] at h
    | cons t ts =>
      simp [oneStep] at h
      rcases h with ⟨hts, ht⟩ | ⟨ht, h⟩
      · subst hts
        subst ht
        have h1 : ¬ (b + 1 < b) := by omega
        have h2 : ¬ (b + 1 = b) := by omega
        have h3 : b + 1 - b - 1 = 0 := by omega
        simp [basePlan, h1, h2, h3]
      · subst ht
        simp [basePlan, ih ts (E ++ [t]) h]

/-- Gap-freeness of a line sequence: along the run, every parsed path is a
one-step successor of the previously parsed path, unparseable lines being
skipped over and the first parsed path being unconstrained. -/
def gapFree : Option (List Nat) → List Line → Bool
  | _, [] => true
  | prev, l :: ls =>
    match parse_path l.text with
    | none => gapFree prev ls
    | some T =>
      (match prev with
       | none => true
       | some B => oneStep B T) && gapFree (some T) ls

/-- On a gap-free tail the sequencer is the identity, whether its baseline
is absent or the path last parsed. -/
theorem gapFree_patchFrom (ls : List Line) :
    ∀ (b prev : Option (List Nat)), (b = none ∨ b = prev) →
      gapFree prev ls = true → patchFrom b ls = ls := by
  induction ls with
  | nil => intro b prev _ _; rfl
  | cons l ls ih =>
    intro b prev hb h
    cases hp : parse_path l.text with
    | none =>
      simp [gapFree, hp] at h
      simp [patchFrom, hp, ih none prev (Or.inl rfl) h]
    | some T =>
      simp [gapFree, hp] at h
      obtain ⟨h1, h2⟩ := h
      have hplan : plan b T = [] := by
        rcases hb with rfl | rfl
        · rfl
        · cases b with
          | none => rfl
          | some B => exact oneStep_basePlan B T [] h1
      simp [patchFrom, hp, hplan, ih (some T) (some T) (Or.inr rfl) h2]

/-- C6: identity on gap-free input. Whenever each consecutive pair of
parseable paths differs by exactly one increment at the deepest shared or
new depth with no skipped values, patch returns the input unchanged; the
empty sequence and sequences starting mid-list are included, the first
parsed path being unconstrained. -/
theorem C6_identity_on_gap_free :
    ∀ lines : List Line, gapFree none lines = true → patch lines = lines := by
  intro lines h
  exact gapFree_patchFrom lines none none (Or.inl rfl) h

/-- C6 witness: the already-correct list of test_correct_list is gap-free
and patch leaves it unchanged. -/
theorem C6_witness :
    gapFree none (["1  item", "2  item", "2.1  item", "2.2  item", "3  item"].map mkLine)
      = true ∧
    patch (["1  item", "2  item", "2.1  item", "2.2  item", "3  item"].map mkLine)
      = ["1  item", "2  item", "2.1  item", "2.2  item", "3  item"].map mkLine :=
  ⟨by decide, C6_identity_on_gap_free _ (by decide)⟩

theorem parseComp_pos {cs : List Char} {n : Nat} (h : parseComp cs = some n) : 1 ≤ n := by
  rw [parseComp] at h
  split at h
  · rename_i hcond
    cases h
    exact hcond.2.2
  · simp at h

theorem parseComps_pos : ∀ {l : List (List Char)} {ns : List Nat},
    parseComps l = some ns → ∀ n ∈ ns, 1 ≤ n := by
  intro l
  induction l with
  | nil =>
    intro ns h n hn
    rw [parseComps] at h
    cases h
    simp at hn
  | cons cs rest ih =>
    intro ns h n hn
    rw [parseComps] at h
    cases hc : parseComp cs with
    | none => rw [hc] at h; simp at h
    | some m =>
      cases hr : parseComps rest with
      | none => rw [hc, hr] at h; simp at h
      | some ms =>
        rw [hc, hr] at h
        simp at h
        rw [← h] at hn
        rcases List.mem_cons.mp hn with rfl | hn
        · exact parseComp_pos hc
        · exact ih hr n hn

theorem parseComps_ne_nil : ∀ {l : List (List Char)} {ns : List Nat},
    l ≠ [] → parseComps l = some ns → ns ≠ [] := by
  intro l ns hl h
  cases l with
  | nil => exact absurd rfl hl
  | cons cs rest =>
    rw [parseComps] at h
    cases hc : parseComp cs with
    | none => rw [hc] at h; simp at h
    | some m =>
      cases hr : parseComps rest with
      | none => rw [hc, hr] at h; simp at h
      | some ms =>
        rw [hc, hr] at h
        simp at h
        rw [← h]
        simp

theorem splitDots_ne_nil (cs : List Char) : splitDots cs ≠ [] := by
  cases cs with
  | nil => simp [splitDots]
  | cons c rest =>
    simp only [splitDots]
    split
    · simp
    · split
      · simp
      · simp

theorem splitDots_ne_single_nil (cs : List Char) (h : cs ≠ []) : splitDots cs ≠ [[]] := by
  cases cs with
  | nil => exact absurd rfl h
  | cons c rest =>
    simp only [splitDots]
    split
    · intro hc
      injection hc with h1 h2
      exact splitDots_ne_nil rest h2
    · split
      · simp
      · simp

theorem dropTrailingEmpty_ne_nil {parts : List (List Char)} (h1 : parts ≠ [])
    (h2 : parts ≠ [[]]) : dropTrailingEmpty parts ≠ [] := by
  rw [dropTrailingEmpty]
  split
  · rename_i hlast
    cases parts with
    | nil => exact absurd rfl h1
    | cons p rest =>
      cases rest with
      | nil =>
        simp at hlast
        exact absurd (by rw [hlast]) h2
      | cons q rest2 => simp [List.dropLast]
  · exact h1

/-- A parsed NumericPath is non-empty and all its components are positive. -/
theorem parse_path_pos {text : String} {T : List Nat} (h : parse_path text = some T) :
    T ≠ [] ∧ ∀ c ∈ T, 1 ≤ c := by
  rw [parse_path] at h
  by_cases hpfx : text.toList.takeWhile isNumChar = []
  · rw [if_pos hpfx] at h; simp at h
  · rw [if_neg hpfx] at h
    have hne : dropTrailingEmpty (splitDots (text.toList.takeWhile isNumChar)) ≠ [] :=
      dropTrailingEmpty_ne_nil (splitDots_ne_nil _) (splitDots_ne_single_nil _ hpfx)
    exact ⟨parseComps_ne_nil hne h, parseComps_pos h⟩

/-- Every path the fresh planner emits is non-empty with positive
components, provided the established prefix and the target are. -/
theorem freshPlan_mem (ts : List Nat) :
    ∀ est : List Nat, (∀ c ∈ est, 1 ≤ c) → (∀ c ∈ ts, 1 ≤ c) →
      ∀ p ∈ freshPlan est ts, p ≠ [] ∧ ∀ c ∈ p, 1 ≤ c := by
  induction ts with
  | nil => intro est _ _ p hp; simp [freshPlan] at hp
  | cons t ts ih =>
    intro est hest hts p hp
    rw [freshPlan] at hp
    by_cases h3 : ts = []
    · rw [if_pos h3] at hp
      obtain ⟨v, hv, rfl⟩ := List.mem_map.mp hp
      refine ⟨by simp, ?_⟩
      intro c hc
      rcases List.mem_append.mp hc with hc | hc
      · exact hest c hc
      · simp at hc; omega
    · rw [if_neg h3] at hp
      rcases List.mem_append.mp hp with hp | hp
      · obtain ⟨v, hv, rfl⟩ := List.mem_map.mp hp
        refine ⟨by simp, ?_⟩
        intro c hc
        rcases List.mem_append.mp hc with hc | hc
        · exact hest c hc
        · simp at hc; omega
      · refine ih (est ++ [t]) ?_ ?_ p hp
        · intro c hc
          rcases List.mem_append.mp hc with hc | hc
          · exact hest c hc
          · simp at hc
            exact hc ▸ hts t (by simp)
        · intro c hc
          exact hts c (by simp [hc])

/-- Every path the matched-phase planner emits is non-empty with positive
components, provided the established prefix and the target are. -/
theorem basePlan_mem (B : List Nat) :
    ∀ (T E : List Nat), (∀ c ∈ E, 1 ≤ c) → (∀ c ∈ T, 1 ≤ c) →
      ∀ p ∈ basePlan E B T, p ≠ [] ∧ ∀ c ∈ p, 1 ≤ c := by
  induction B with
  | nil =>
    intro T E hE hT p hp
    cases T with
    | nil => simp [basePlan] at hp
    | cons t ts => exact freshPlan_mem (t :: ts) E hE hT p hp
  | cons b bs ih =>
    intro T E hE hT p hp
    cases T with
    | nil => simp [basePlan] at hp
    | cons t ts =>
      rw [basePlan] at hp
      split_ifs at hp with h1 h2 h3
      · simp at hp
      · refine ih ts (E ++ [t]) ?_ (fun c hc => hT c (by simp [hc])) p hp
        intro c hc
        rcases List.mem_append.mp hc with hc | hc
        · exact hE c hc
        · simp at hc
          exact hc ▸ hT t (by simp)
      · obtain ⟨v, hv, rfl⟩ := List.mem_map.mp hp
        refine ⟨by simp, ?_⟩
        intro c hc
        rcases List.mem_append.mp hc with hc | hc
        · exact hE c hc
        · simp at hc; omega
      · rcases List.mem_append.mp hp with hp | hp
        · obtain ⟨v, hv, rfl⟩ := List.mem_map.mp hp
          refine ⟨by simp, ?_⟩
          intro c hc
          rcases List.mem_append.mp hc with hc | hc
          · exact hE c hc
          · simp at hc; omega
        · refine freshPlan_mem ts (E ++ [t]) ?_ (fun c hc => hT c (by simp [hc])) p hp
          intro c hc
          rcases List.mem_append.mp hc with hc | hc
          · exact hE c hc
          · simp at hc
            exact hc ▸ hT t (by simp)

/-- Every planned intermediate path is non-empty with positive components. -/
theorem plan_mem (b : Option (List Nat)) (T : List Nat) (hT : ∀ c ∈ T, 1 ≤ c) :
    ∀ p ∈ plan b T, p ≠ [] ∧ ∀ c ∈ p, 1 ≤ c := by
  cases b with
  | none => intro p hp; simp [plan] at hp
  | some B => intro p hp; exact basePlan_mem B T [] (by simp) hT p hp

/-- Every line the sequencer outputs is either a synthetic rendering of a
non-empty positive planned path or one of the input lines. -/
theorem patchFrom_shape (ls : List Line) :
    ∀ b : Option (List Nat), (∀ l ∈ ls, l.is_synthetic = false) →
    ∀ s ∈ patchFrom b ls,
      (s.is_synthetic = true → ∃ p, p ≠ [] ∧ (∀ c ∈ p, 1 ≤ c) ∧ s = synth_line p) ∧
      (s.is_synthetic = false → s ∈ ls) := by
  induction ls with
  | nil => intro b _ s hs; simp [patchFrom] at hs
  | cons l ls ih =>
    intro b hreal s hs
    have hl : l.is_synthetic = false := hreal l (by simp)
    have hls : ∀ x ∈ ls, x.is_synthetic = false := fun x hx => hreal x (by simp [hx])
    cases hp : parse_path l.text with
    | none =>
      simp only [patchFrom, hp, List.mem_cons] at hs
      rcases hs with rfl | hs
      · refine ⟨fun hsyn => ?_, fun _ => by simp⟩
        rw [hl] at hsyn
        cases hsyn
      · exact ⟨(ih none hls s hs).1,
          fun hr => List.mem_cons_of_mem l ((ih none hls s hs).2 hr)⟩
    | some T =>
      have hT := parse_path_pos hp
      simp only [patchFrom, hp, List.mem_append, List.mem_cons, List.mem_map] at hs
      rcases hs with ⟨p, hpmem, rfl⟩ | rfl | hs
      · have hpp := plan_mem b T hT.2 p hpmem
        refine ⟨fun _ => ⟨p, hpp.1, hpp.2, rfl⟩, fun hr => ?_⟩
        rw [synth_line_is_synthetic] at hr
        cases hr
      · refine ⟨fun hsyn => ?_, fun _ => by simp⟩
        rw [hl] at hsyn
        cases hsyn
      · exact ⟨(ih (some T) hls s hs).1,
          fun hr => List.mem_cons_of_mem l ((ih (some T) hls s hs).2 hr)⟩

/-- C7: synthetic format invariant. In every output of patch on real input
lines, each synthetic line is the rendering of a non-empty positive
NumericPath, its text is that path's components dot-joined with a trailing
dot, it is not an input line, and every non-synthetic output line is an
input line. -/
theorem C7_synthetic_format :
    ∀ lines : List Line, (∀ l ∈ lines, l.is_synthetic = false) →
    ∀ s ∈ patch lines,
      (s.is_synthetic = true →
        s ∉ lines ∧
        ∃ p, p ≠ [] ∧ (∀ c ∈ p, 1 ≤ c) ∧ s = synth_line p ∧ s.text = path_text p) ∧
      (s.is_synthetic = false → s ∈ lines) := by
  intro lines hreal s hs
  have h := patchFrom_shape lines none hreal s hs
  refine ⟨fun hsyn => ?_, h.2⟩
  obtain ⟨p, h1, h2, rfl⟩ := h.1 hsyn
  refine ⟨?_, p, h1, h2, rfl, rfl⟩
  intro hmem
  have hfalse := hreal _ hmem
  rw [synth_line_is_synthetic] at hfalse
  cases hfalse

/-- C7 witness: the invariant instantiated at the test_hl_raw_text5 input. -/
theorem C7_witness :
    (∀ l ∈ hlRawText5Lines, l.is_synthetic = false) ∧
    ∀ s ∈ patch hlRawText5Lines,
      (s.is_synthetic = true →
        s ∉ hlRawText5Lines ∧
        ∃ p, p ≠ [] ∧ (∀ c ∈ p, 1 ≤ c) ∧ s = synth_line p ∧ s.text = path_text p) ∧
      (s.is_synthetic = false → s ∈ hlRawText5Lines) :=
  ⟨by decide, C7_synthetic_format hlRawText5Lines (by decide)⟩

/-- Whether the text begins with a decimal digit. -/
def beginsWithDigit (text : String) : Bool :=
  match text.toList with
  | [] => false
  | c :: _ => c.isDigit

/-- Component parsing fails exactly when some component fails. -/
theorem parseComps_eq_none (l : List (List Char)) :
    parseComps l = none ↔ ∃ cs ∈ l, parseComp cs = none := by
  induction l with
  | nil => simp [parseComps]
  | cons cs rest ih =>
    cases hc : parseComp cs with
    | none =>
      simp only [parseComps, hc]
      exact ⟨fun _ => ⟨cs, by simp, hc⟩, fun _ => trivial⟩
    | some m =>
      cases hr : parseComps rest with
      | none =>
        simp only [parseComps, hc, hr]
        constructor
        · intro _
          obtain ⟨cs2, hmem, hnone⟩ := ih.mp hr
          exact ⟨cs2, by simp [hmem], hnone⟩
        · intro _; trivial
      | some ms =>
        simp only [parseComps, hc, hr]
        constructor
        · intro h; simp at h
        · rintro ⟨cs2, hmem, hnone⟩
          rcases List.mem_cons.mp hmem with rfl | hmem
          · rw [hc] at hnone; cases hnone
          · have hcontra := ih.mpr ⟨cs2, hmem, hnone⟩
            rw [hr] at hcontra
            cases hcontra

/-- A leading dot puts an empty component among the parsed components. -/
theorem nil_mem_splitDots_dot (rest : List Char) :
    [] ∈ dropTrailingEmpty (splitDots ('.' :: rest)) := by
  have hsplit : splitDots ('.' :: rest) = [] :: splitDots rest := by
    rw [splitDots]
    simp
  rw [hsplit, dropTrailingEmpty]
  split
  · cases hS : splitDots rest with
    | nil => exact absurd hS (splitDots_ne_nil rest)
    | cons g gs =>
      rw [List.dropLast_cons_of_ne_nil (by simp)]
      simp
  · simp

/-- The empty component never parses. -/
theorem parseComp_nil : parseComp [] = none := by
  rw [parseComp]
  simp

/-- The parser fails exactly when the maximal leading prefix of digits and
dots is empty or some component of it fails to parse. -/
theorem parse_path_eq_none_iff (text : String) :
    parse_path text = none ↔
      (text.toList.takeWhile isNumChar = [] ∨
        ∃ cs ∈ dropTrailingEmpty (splitDots (text.toList.takeWhile isNumChar)),
          parseComp cs = none) := by
  rw [parse_path]
  by_cases hpfx : text.toList.takeWhile isNumChar = []
  · rw [if_pos hpfx]
    exact ⟨fun _ => Or.inl hpfx, fun _ => rfl⟩
  · rw [if_neg hpfx]
    simp only [hpfx, false_or]
    exact parseComps_eq_none _

/-- The parser fails exactly when the text does not begin with a digit or
some component of the leading prefix fails to parse. -/
theorem parse_path_eq_none_iff_digit (text : String) :
    parse_path text = none ↔
      (beginsWithDigit text = false ∨
        ∃ cs ∈ dropTrailingEmpty (splitDots (text.toList.takeWhile isNumChar)),
          parseComp cs = none) := by
  rw [parse_path_eq_none_iff]
  constructor
  · rintro (hpfx | hfail)
    · left
      rw [beginsWithDigit]
      cases htl : text.toList with
      | nil => rfl
      | cons c rest =>
        rw [htl, List.takeWhile_cons] at hpfx
        show c.isDigit = false
        by_cases hnum : isNumChar c = true
        · rw [if_pos hnum] at hpfx
          cases hpfx
        · rw [isNumChar] at hnum
          simp only [Bool.or_eq_true, not_or] at hnum
          simp [hnum.1]
    · right; exact hfail
  · rintro (hd | hfail)
    · cases htl : text.toList with
      | nil =>
        left
        rfl
      | cons c rest =>
        rw [beginsWithDigit, htl] at hd
        have hd2 : c.isDigit = false := hd
        by_cases hnum : isNumChar c = true
        · have hdot : c = '.' := by
            rw [isNumChar] at hnum
            simp only [Bool.or_eq_true] at hnum
            rcases hnum with hnum | hnum
            · rw [hnum] at hd2; cases hd2
            · exact eq_of_beq hnum
          right
          rw [List.takeWhile_cons, if_pos hnum, hdot]
          exact ⟨[], nil_mem_splitDots_dot _, parseComp_nil⟩
        · left
          rw [List.takeWhile_cons, if_neg hnum]
    · right; exact hfail

/-- C8: the Numbering Parser contract. The parser yields no path exactly
when the maximal leading prefix of digits and dots is empty or some
component of it fails to parse as a positive integer; equivalently, when
the text does not begin with a digit or some component fails. A trailing
dot contributes no component, and the four literal examples parse as
specified. -/
theorem C8_parser_contract :
    (∀ text : String,
      parse_path text = none ↔
        (text.toList.takeWhile isNumChar = [] ∨
          ∃ cs ∈ dropTrailingEmpty (splitDots (text.toList.takeWhile isNumChar)),
            parseComp cs = none)) ∧
    (∀ text : String,
      parse_path text = none ↔
        (beginsWithDigit text = false ∨
          ∃ cs ∈ dropTrailingEmpty (splitDots (text.toList.takeWhile isNumChar)),
            parseComp cs = none)) ∧
    parse_path "2.1.2.1.2  item" = some [2, 1, 2, 1, 2] ∧
    parse_path "2. item" = some [2] ∧
    parse_path "1 item" = some [1] ∧
    parse_path "some item" = none :=
  ⟨parse_path_eq_none_iff, parse_path_eq_none_iff_digit,
    by decide, by decide, by decide, by decide⟩

end Dedoc
